import Mathlib

/-! # CPP.cpp: pair-sum search, `golden_ratio`, `first_non_recurring`, `christmas_tree`

A shallow embedding of the functions of `CPP/CPP/CPP.cpp` that compute something: the
`sum_of_two_others` and `sum_of_two_others2` overloads, `golden_ratio`,
`first_non_recurring` and `christmas_tree`, with the properties stated about them.

* `int` is `I32`: an integer in `[-2^31, 2^31 - 1]`; `+`, `-`, `*` and `++` wrap
  around modulo `2^32`.
* `std::vector<int>` and a raw `int[]` buffer are `List I32`; a read of a raw
  buffer outside its physical extent is the outcome `Outcome.outOfBounds`.
* `std::unordered_set<int>` is `Finset I32`, `std::unordered_set<char>` is
  `Finset Char`; a `std::string` or C string is the list of its characters.
* The `std::string` that `christmas_tree` builds holds at most `capacity`
  characters; an `append` past that throws and the run has no result.
* The loops of the length-prefixed overload test `index <= array[0]` on an `int`
  counter, which need not come to an end; they are run with fuel, and a result
  is stated as reached with enough of it.
* A function that reaches its end without a `return` yields `none`.
-/

namespace CPP

/-! ## The type `int` -/

/-- The C++ type `int`: a signed 32-bit integer. -/
structure I32 where
  val : Int
  lo : -2147483648 ≤ val
  hi : val ≤ 2147483647
  deriving DecidableEq

/-- Reduction of a mathematical integer to the `int` it wraps around to. -/
def wrap (x : Int) : I32 :=
  ⟨(x + 2147483648) % 4294967296 - 2147483648, by omega, by omega⟩

instance : OfNat I32 n := ⟨wrap n⟩
instance : Add I32 := ⟨fun a b => wrap (a.val + b.val)⟩
instance : Sub I32 := ⟨fun a b => wrap (a.val - b.val)⟩
instance : Mul I32 := ⟨fun a b => wrap (a.val * b.val)⟩
instance : Neg I32 := ⟨fun a => wrap (-a.val)⟩
instance : LE I32 := ⟨fun a b => a.val ≤ b.val⟩
instance : LT I32 := ⟨fun a b => a.val < b.val⟩
instance (a b : I32) : Decidable (a ≤ b) := inferInstanceAs (Decidable (a.val ≤ b.val))
instance (a b : I32) : Decidable (a < b) := inferInstanceAs (Decidable (a.val < b.val))
instance : Inhabited I32 := ⟨0⟩

/-- The largest `int`. -/
def INT_MAX : I32 := ⟨2147483647, by decide, by decide⟩

/-- The smallest `int`. -/
def INT_MIN : I32 := ⟨-2147483648, by decide, by decide⟩

/-! ## The overload on `std::vector` (lines 129-142) -/

/-- The source function `sum_of_two_others(std::vector<int>, std::vector<int>, int)`:
`for (int a : array_a) for (int b : array_b) if (a + b == target) return true;`
then `return false`. `List.any` scans left to right and stops at the first hit. -/
def sum_of_two_others (array_a array_b : List I32) (target : I32) : Bool :=
  array_a.any fun a => array_b.any fun b => a + b == target

/-! ## The hash-based overloads (lines 145-177) -/

/-- The range constructor `std::unordered_set<int>(v.begin(), v.end())`: the set
of the values of `v`. -/
def unordered_set_of (v : List I32) : Finset I32 :=
  v.foldl (fun s x => insert x s) ∅

/-- The source function `sum_of_two_others2(std::unordered_set<int>, std::vector<int>, int)`:
`for (int item : vector_b) if (unordered_set_a.find(target - item) != unordered_set_a.end()) return true;`
then `return false`. -/
def sum_of_two_others2_set (unordered_set_a : Finset I32) (vector_b : List I32)
    (target : I32) : Bool :=
  vector_b.any fun item => decide (target - item ∈ unordered_set_a)

/-- The source function `sum_of_two_others2(std::vector<int>, std::vector<int>, int)`:
builds `unordered_set_a` from `vector_a`, then runs the same loop over `vector_b`. -/
def sum_of_two_others2 (vector_a vector_b : List I32) (target : I32) : Bool :=
  let unordered_set_a := unordered_set_of vector_a
  vector_b.any fun item => decide (target - item ∈ unordered_set_a)

/-! ## Raw `int[]` buffers (lines 94-126)

A raw buffer is the list of the `int`s physically stored in it. The source reads
`array[index]` without any check; a read outside the buffer is undefined behaviour
and ends the run with `Outcome.outOfBounds`. -/

/-- How a run over raw buffers ends: at a `return` with its Boolean, or at a read
outside a buffer. -/
inductive Outcome where
  | returned (value : Bool)
  | outOfBounds
  deriving DecidableEq, Repr

/-- The read `buf[index]` of a raw buffer with an `int` index; `none` when the index
is outside the buffer. -/
def readAt (buf : List I32) (index : I32) : Option I32 :=
  if 0 ≤ index.val then buf.get? index.val.toNat else none

/-- A `for` loop over the successive counter values `counters` whose body may execute
`return true`: the body yields `returned true` when it did, `returned false` when the
loop goes on. The loop yields `returned false` when it ran to its end, where the
source goes on to `return false`. -/
def for_loop : List Nat → (Nat → Outcome) → Outcome
  | [], _ => .returned false
  | index :: rest, body =>
    match body index with
    | .outOfBounds => .outOfBounds
    | .returned true => .returned true
    | .returned false => for_loop rest body

/-- The source function `sum_of_two_others(int, int[], int, int[], int)`, lines 94-112.
Both loops run their counter from 0 while it is `< array_a_len` (line 108 tests
`index_b < array_a_len`; `array_b_len` is not read anywhere in the body). A counter
stays below `array_a_len`, so `index++` never overflows and the counter values are
`0, 1, ..., array_a_len - 1` (none when `array_a_len <= 0`). -/
def sum_of_two_others_lens (array_a_len : I32) (array_a : List I32) (array_b_len : I32)
    (array_b : List I32) (target : I32) : Outcome :=
  let _ := array_b_len
  for_loop (List.range array_a_len.val.toNat) fun index_a =>
    for_loop (List.range array_a_len.val.toNat) fun index_b =>
      match array_a.get? index_a, array_b.get? index_b with
      | some a, some b => .returned (a + b == target)
      | _, _ => .outOfBounds

/-- The inner loop of the length-prefixed overload, lines 122-124, entered with the
counter at `index_b`: `for (...; index_b <= array_b[0]; index_b++)` with the body
`if (array_a[index_a] + array_b[index_b] == target) return true;`. The test reads
`array_b[0]` afresh every round and `index_b++` wraps around, so the loop is run with
fuel: `none` is a run that needs more of it. `returned false` is a loop that ran to
its end without returning. -/
def prefixed_inner (array_a array_b : List I32) (target index_a : I32) :
    Nat → I32 → Option Outcome
  | 0, _ => none
  | fuel + 1, index_b =>
    match readAt array_b 0 with
    | none => some .outOfBounds
    | some len_b =>
      if index_b ≤ len_b then
        match readAt array_a index_a, readAt array_b index_b with
        | some a, some b =>
          if a + b == target then some (.returned true)
          else prefixed_inner array_a array_b target index_a fuel (index_b + 1)
        | _, _ => some .outOfBounds
      else some (.returned false)

/-- The outer loop of the length-prefixed overload, lines 121-125, entered with the
counter at `index_a`: `for (...; index_a <= array_a[0]; index_a++)` around the inner
loop started at `index_b = 1`, then `return false`. The inner loop runs on the fuel
that is left; when it returned true, read outside a buffer or ran out of fuel, that
is the outcome of the call. -/
def prefixed_outer (array_a array_b : List I32) (target : I32) :
    Nat → I32 → Option Outcome
  | 0, _ => none
  | fuel + 1, index_a =>
    match readAt array_a 0 with
    | none => some .outOfBounds
    | some len_a =>
      if index_a ≤ len_a then
        let inner := prefixed_inner array_a array_b target index_a fuel 1
        if inner = some (.returned false) then
          prefixed_outer array_a array_b target fuel (index_a + 1)
        else inner
      else some (.returned false)

/-- The source function `sum_of_two_others(int[], int[], int)`, lines 115-126: the
outer loop started at `index_a = 1`. -/
def sum_of_two_others_prefixed (fuel : Nat) (array_a array_b : List I32) (target : I32) :
    Option Outcome :=
  prefixed_outer array_a array_b target fuel 1

/-! ## `christmas_tree` (lines 12-29)

A `std::string` and a `const char*` string are the list of their characters. A
`std::string` cannot grow without bound: `capacity` is the number of characters the
`result` of a run can hold (its `max_size()` and the memory there is). -/

/-- The loop of `golden_ratio`, lines 189-194, with `rounds` rounds to go from the state
`(v, p)`: the body `x = v; v += p; p = x;` makes `v + p` the new `v` and the old `v` the
new `p`. The number type is a parameter: `int` in the source. -/
def golden_ratio_loop {α : Type} [Add α] : Nat → α × α → α × α
  | 0, state => state
  | rounds + 1, (v, p) => golden_ratio_loop rounds (v + p, v)

/-- The source function `golden_ratio`, lines 180-197: `v = 1`, `p = 0`, then the loop
for `i = 0, ..., index - 1` (no round when `index <= 0`), in `int` arithmetic; `v` is
returned. -/
def golden_ratio (index : I32) : I32 :=
  (golden_ratio_loop index.val.toNat ((1 : I32), (0 : I32))).1

/-- The function `golden_ratio` read in exact integer arithmetic: the same loop on
mathematical integers. -/
def golden_ratio_exact (index : Int) : Int :=
  (golden_ratio_loop index.toNat ((1 : Int), (0 : Int))).1

/-! ## `first_non_recurring` (lines 200-220) -/

/-- The first loop of `first_non_recurring`, lines 211-215, on the sets
`(valid, too_many)`: a character not yet in `valid` goes into `valid`, any other into
`too_many`. -/
def first_non_recurring_sets (string_a : List Char) :
    Finset Char × Finset Char → Finset Char × Finset Char :=
  fun sets => string_a.foldl
    (fun sets char_a =>
      if char_a ∉ sets.1 then (insert char_a sets.1, sets.2)
      else (sets.1, insert char_a sets.2))
    sets

/-- The source function `first_non_recurring`, lines 200-220: after the first loop, the
first character of `string_a` that is not in `too_many` is returned. When there is none
control reaches the end of the function without a `return`: `none`. -/
def first_non_recurring (string_a : List Char) : Option Char :=
  let too_many := (first_non_recurring_sets string_a (∅, ∅)).2
  string_a.find? fun char_a => decide (char_a ∉ too_many)

/-! ## Arithmetic of `int` -/

theorem I32.eq_of_val_eq {a b : I32} (h : a.val = b.val) : a = b := by
  cases a; cases b; simp_all

theorem I32.add_val (a b : I32) :
    (a + b).val = (a.val + b.val + 2147483648) % 4294967296 - 2147483648 := rfl

theorem I32.sub_val (a b : I32) :
    (a - b).val = (a.val - b.val + 2147483648) % 4294967296 - 2147483648 := rfl

theorem wrap_val_of_range {x : Int} (h1 : -2147483648 ≤ x) (h2 : x ≤ 2147483647) :
    (wrap x).val = x := by
  show (x + 2147483648) % 4294967296 - 2147483648 = x
  omega

/-- Without overflow the `int` sum is the exact sum. -/
theorem I32.add_val_of_range (a b : I32) (h1 : -2147483648 ≤ a.val + b.val)
    (h2 : a.val + b.val ≤ 2147483647) : (a + b).val = a.val + b.val :=
  wrap_val_of_range h1 h2

/-- In wrap-around arithmetic `a + b == target` says the same as `a == target - b`. -/
theorem I32.add_eq_iff_eq_sub (a b target : I32) : a + b = target ↔ a = target - b := by
  have ha1 := a.lo
  have ha2 := a.hi
  have ht1 := target.lo
  have ht2 := target.hi
  constructor
  · intro h
    apply I32.eq_of_val_eq
    have h2 := congrArg I32.val h
    rw [I32.add_val] at h2
    rw [I32.sub_val]
    omega
  · intro h
    apply I32.eq_of_val_eq
    have h2 := congrArg I32.val h
    rw [I32.sub_val] at h2
    rw [I32.add_val]
    omega

theorem I32.add_comm_wrap (a b : I32) : a + b = b + a := by
  apply I32.eq_of_val_eq
  rw [I32.add_val, I32.add_val, Int.add_comm a.val b.val]

/-! ## Characterisations of the vector overloads -/

theorem sum_of_two_others_iff_mem (A B : List I32) (target : I32) :
    sum_of_two_others A B target = true ↔ ∃ a ∈ A, ∃ b ∈ B, a + b = target := by
  simp [sum_of_two_others, List.any_eq_true]

theorem mem_foldl_insert (v : List I32) (s : Finset I32) (x : I32) :
    x ∈ v.foldl (fun s x => insert x s) s ↔ x ∈ s ∨ x ∈ v := by
  induction v generalizing s with
  | nil => simp
  | cons y ys ih =>
    rw [List.foldl_cons, ih, Finset.mem_insert, List.mem_cons]
    tauto

theorem mem_unordered_set_of (v : List I32) (x : I32) : x ∈ unordered_set_of v ↔ x ∈ v := by
  simp [unordered_set_of, mem_foldl_insert]

theorem sum_of_two_others2_set_iff_mem (S : Finset I32) (B : List I32) (target : I32) :
    sum_of_two_others2_set S B target = true ↔ ∃ b ∈ B, target - b ∈ S := by
  simp [sum_of_two_others2_set, List.any_eq_true]

theorem sum_of_two_others2_iff_mem (A B : List I32) (target : I32) :
    sum_of_two_others2 A B target = true ↔ ∃ b ∈ B, target - b ∈ A := by
  simp [sum_of_two_others2, List.any_eq_true, mem_unordered_set_of]

theorem sum_of_two_others2_eq_set (A B : List I32) (target : I32) :
    sum_of_two_others2 A B target = sum_of_two_others2_set (unordered_set_of A) B target := rfl

/-- The hash-based scan finds a pair exactly when the linear scan does. -/
theorem sum_of_two_others2_iff_linear (A B : List I32) (target : I32) :
    sum_of_two_others2 A B target = true ↔ sum_of_two_others A B target = true := by
  rw [sum_of_two_others2_iff_mem, sum_of_two_others_iff_mem]
  constructor
  · rintro ⟨b, hb, ha⟩
    exact ⟨target - b, ha, b, hb, (I32.add_eq_iff_eq_sub _ _ _).2 rfl⟩
  · rintro ⟨a, ha, b, hb, h⟩
    refine ⟨b, hb, ?_⟩
    rw [← (I32.add_eq_iff_eq_sub a b target).1 h]
    exact ha

theorem bool_eq_of_iff {x y : Bool} (h : x = true ↔ y = true) : x = y := by
  cases x <;> cases y <;> simp_all

/-! ## Claims C1-C3 -/

/-- C1: the vector overload `sum_of_two_others(A, B, target)` returns true if and only if
there are indices `i`, `j` with `A[i] + B[j] == target` (the `int` sum of the source
expression); on `A = B = [1,2,3,4,5]` it returns true for target 10 and false for
target 11. -/
theorem C1_vector_true_iff_exists_indices :
    (∀ (A B : List I32) (target : I32),
      sum_of_two_others A B target = true ↔
        ∃ (i : Fin A.length) (j : Fin B.length), A.get i + B.get j = target) ∧
    sum_of_two_others [1, 2, 3, 4, 5] [1, 2, 3, 4, 5] 10 = true ∧
    sum_of_two_others [1, 2, 3, 4, 5] [1, 2, 3, 4, 5] 11 = false := by
  refine ⟨?_, by decide, by decide⟩
  intro A B target
  rw [sum_of_two_others_iff_mem]
  constructor
  · rintro ⟨a, ha, b, hb, h⟩
    obtain ⟨i, rfl⟩ := List.get_of_mem ha
    obtain ⟨j, rfl⟩ := List.get_of_mem hb
    exact ⟨i, j, h⟩
  · rintro ⟨i, j, h⟩
    exact ⟨A.get i, List.get_mem A i.1 i.2, B.get j, List.get_mem B j.1 j.2, h⟩

/-- C2: for all sequences A, B and every target T the hash-based
`sum_of_two_others2(A, B, T)` returns the same Boolean as the linear-scan
`sum_of_two_others(A, B, T)`. -/
theorem C2_hash_based_eq_linear_scan (A B : List I32) (T : I32) :
    sum_of_two_others2 A B T = sum_of_two_others A B T :=
  bool_eq_of_iff (sum_of_two_others2_iff_linear A B T)

/-- C3: `sum_of_two_others2` called with the `unordered_set` built from the elements of A,
with B and T, returns the same Boolean as the linear-scan `sum_of_two_others(A, B, T)`. -/
theorem C3_prebuilt_set_eq_linear_scan (A B : List I32) (T : I32) :
    sum_of_two_others2_set (unordered_set_of A) B T = sum_of_two_others A B T := by
  rw [← sum_of_two_others2_eq_set]
  exact bool_eq_of_iff (sum_of_two_others2_iff_linear A B T)

/-! ## Claim C4: the explicit-lengths overload -/

/-- C4: evaluation of the explicit-lengths overload at the failing inputs. With
`array_a_len = 1`, `a = [1]`, `array_b_len = 2`, `b = [0, 5]` and target 6 the lengths
are the actual ones and `1 + 5 == 6`, so the vector overload returns true, while the
explicit-lengths overload returns false: its inner loop stops at `array_a_len`. With
`a = [1, 2]`, `b = [0]` the inner loop reads `b[1]`, outside the buffer. -/
theorem C4_lens_inner_loop_bounded_by_array_a_len :
    sum_of_two_others_lens 1 [1] 2 [0, 5] 6 = .returned false ∧
    sum_of_two_others [1] [0, 5] 6 = true ∧
    sum_of_two_others_lens 2 [1, 2] 1 [0] 6 = .outOfBounds := by
  decide

/-! ## Claim C5: the length-prefixed overload on well-formed buffers -/

theorem I32.val_zero : (0 : I32).val = 0 := rfl
theorem I32.val_one : (1 : I32).val = 1 := rfl

theorem I32.le_iff_val (a b : I32) : a ≤ b ↔ a.val ≤ b.val := Iff.rfl

theorem I32.succ_val (j : I32) (h : j.val < 2147483647) : (j + 1).val = j.val + 1 := by
  have h1 := j.lo
  rw [I32.add_val_of_range j 1 (by rw [I32.val_one]; omega) (by rw [I32.val_one]; omega),
    I32.val_one]

theorem readAt_cons_zero (m : I32) (pb : List I32) : readAt (m :: pb) 0 = some m := by
  simp [readAt, I32.val_zero]

theorem readAt_cons_succ (m : I32) (pb : List I32) (j : I32) (k : Nat)
    (h : j.val = (k : Int) + 1) : readAt (m :: pb) j = pb.get? k := by
  have h0 : (0 : Int) ≤ j.val := by omega
  have h1 : j.val.toNat = k + 1 := by omega
  simp [readAt, h0, h1]

theorem readAt_neg (buf : List I32) (j : I32) (h : j.val < 0) : readAt buf j = none := by
  have h0 : ¬ (0 : Int) ≤ j.val := by omega
  simp [readAt, h0]

/-- On a well-formed buffer `len_b :: pb` the inner loop entered at `index_b = k + 1`
scans the payload from position `k` on. -/
theorem prefixed_inner_wellformed (array_a : List I32) (len_b : I32) (pb : List I32)
    (target index_a a : I32) (hread : readAt array_a index_a = some a)
    (hb : len_b.val = pb.length) (hb2 : len_b.val < 2147483647) :
    ∀ (fuel k : Nat) (index_b : I32), index_b.val = (k : Int) + 1 → k ≤ pb.length →
      pb.length - k < fuel →
      prefixed_inner array_a (len_b :: pb) target index_a fuel index_b =
        some (.returned ((pb.drop k).any fun b => a + b == target)) := by
  intro fuel
  induction fuel with
  | zero => intro k index_b _ _ h; omega
  | succ fuel ih =>
    intro k index_b hidx hk hfuel
    rw [prefixed_inner, readAt_cons_zero]
    by_cases hend : k = pb.length
    · have hgt : ¬ index_b ≤ len_b := by rw [I32.le_iff_val]; omega
      simp [hgt, hend]
    · have hlt : k < pb.length := by omega
      have hle : index_b ≤ len_b := by rw [I32.le_iff_val]; omega
      rw [readAt_cons_succ len_b pb index_b k hidx, hread, List.get?_eq_get hlt]
      rw [List.drop_eq_getElem_cons hlt, List.any_cons]
      simp only [hle, if_true]
      by_cases hit : a + pb[k] = target
      · simp [hit]
      · have hnext : (index_b + 1).val = ((k + 1 : Nat) : Int) + 1 := by
          rw [I32.succ_val index_b (by omega)]; push_cast; omega
        have := ih (k + 1) (index_b + 1) hnext (by omega) (by omega)
        simp [hit, this]

/-- On well-formed buffers the outer loop entered at `index_a = k + 1` is the vector
overload on the payload of `a` from position `k` on and the payload of `b`. -/
theorem prefixed_outer_wellformed (len_a len_b : I32) (pa pb : List I32) (target : I32)
    (ha : len_a.val = pa.length) (hb : len_b.val = pb.length)
    (ha2 : len_a.val < 2147483647) (hb2 : len_b.val < 2147483647) :
    ∀ (fuel k : Nat) (index_a : I32), index_a.val = (k : Int) + 1 → k ≤ pa.length →
      (pa.length - k) + pb.length + 1 ≤ fuel →
      prefixed_outer (len_a :: pa) (len_b :: pb) target fuel index_a =
        some (.returned (sum_of_two_others (pa.drop k) pb target)) := by
  intro fuel
  induction fuel with
  | zero => intro k index_a _ _ h; omega
  | succ fuel ih =>
    intro k index_a hidx hk hfuel
    rw [prefixed_outer, readAt_cons_zero]
    by_cases hend : k = pa.length
    · have hgt : ¬ index_a ≤ len_a := by rw [I32.le_iff_val]; omega
      simp [hgt, hend, sum_of_two_others]
    · have hlt : k < pa.length := by omega
      have hle : index_a ≤ len_a := by rw [I32.le_iff_val]; omega
      have hread : readAt (len_a :: pa) index_a = some pa[k] := by
        rw [readAt_cons_succ len_a pa index_a k hidx, List.get?_eq_get hlt]
        rfl
      have hinner := prefixed_inner_wellformed (len_a :: pa) len_b pb target index_a pa[k]
        hread hb hb2 fuel 0 1 (by rw [I32.val_one]; simp) (by omega) (by omega)
      rw [List.drop_zero] at hinner
      have hnext : (index_a + 1).val = ((k + 1 : Nat) : Int) + 1 := by
        rw [I32.succ_val index_a (by omega)]; push_cast; omega
      have hrec := ih (k + 1) (index_a + 1) hnext (by omega) (by omega)
      have hsum : sum_of_two_others (pa.drop k) pb target =
          ((pb.any fun b => pa[k] + b == target) ||
            sum_of_two_others (pa.drop (k + 1)) pb target) := by
        rw [List.drop_eq_getElem_cons hlt]
        rfl
      rw [hsum, hinner, hrec]
      simp only [hle, if_true]
      cases (pb.any fun b => pa[k] + b == target) <;> simp

theorem readAt_mem (buf : List I32) (j b : I32) (h : readAt buf j = some b) : b ∈ buf := by
  unfold readAt at h
  split at h
  · exact List.get?_mem h
  · exact absurd h (by simp)

/-- When `array_b[0]` is `INT_MAX` the test `index_b <= array_b[0]` never fails: a run of
the inner loop that meets no matching pair does not come to its end. -/
theorem prefixed_inner_int_max_no_match (array_a pb : List I32) (target index_a a : I32)
    (hread : readAt array_a index_a = some a)
    (hno : ∀ b ∈ INT_MAX :: pb, a + b ≠ target) :
    ∀ (fuel : Nat) (index_b : I32),
      prefixed_inner array_a (INT_MAX :: pb) target index_a fuel index_b = none ∨
      prefixed_inner array_a (INT_MAX :: pb) target index_a fuel index_b =
        some .outOfBounds := by
  intro fuel
  induction fuel with
  | zero => intro index_b; exact Or.inl rfl
  | succ fuel ih =>
    intro index_b
    have hle : index_b ≤ INT_MAX := index_b.hi
    rw [prefixed_inner, readAt_cons_zero]
    simp only [hle, if_true, hread]
    cases hb : readAt (INT_MAX :: pb) index_b with
    | none => exact Or.inr rfl
    | some b =>
      have hne : ¬ a + b = target := hno b (readAt_mem _ _ _ hb)
      simp only [beq_iff_eq, hne, if_false]
      exact ih (index_b + 1)

/-- With `INT_MAX` payload elements in `b` and no matching pair for `array_a[index_a]`,
the inner loop entered at `index_b = k + 1` reads the whole payload, wraps `index_b`
around to `INT_MIN` and reads `array_b[INT_MIN]`, outside the buffer. -/
theorem prefixed_inner_int_max_runs_off (array_a pb : List I32) (target index_a a : I32)
    (hread : readAt array_a index_a = some a)
    (hno : ∀ b ∈ INT_MAX :: pb, a + b ≠ target)
    (hlen : pb.length = 2147483647) :
    ∀ (fuel k : Nat) (index_b : I32), index_b.val = (k : Int) + 1 → k < pb.length →
      pb.length - k + 1 ≤ fuel →
      prefixed_inner array_a (INT_MAX :: pb) target index_a fuel index_b =
        some .outOfBounds := by
  intro fuel
  induction fuel with
  | zero => intro k index_b _ _ h; omega
  | succ fuel ih =>
    intro k index_b hidx hk hfuel
    have hle : index_b ≤ INT_MAX := index_b.hi
    have hb : readAt (INT_MAX :: pb) index_b = some pb[k] := by
      rw [readAt_cons_succ INT_MAX pb index_b k hidx, List.get?_eq_get hk]
      rfl
    have hne : ¬ a + pb[k] = target := hno _ (readAt_mem _ _ _ hb)
    rw [prefixed_inner, readAt_cons_zero]
    simp only [hle, if_true, hread, hb, beq_iff_eq, hne, if_false]
    by_cases hlast : k + 1 = pb.length
    · have hv : index_b.val = 2147483647 := by omega
      have hwrap : (index_b + 1).val < 0 := by
        rw [I32.add_val, hv, I32.val_one]
        decide
      obtain ⟨f, rfl⟩ : ∃ f, fuel = f + 1 := ⟨fuel - 1, by omega⟩
      have hle2 : index_b + 1 ≤ INT_MAX := (index_b + 1).hi
      rw [prefixed_inner, readAt_cons_zero]
      simp only [hle2, if_true, hread, readAt_neg _ _ hwrap]
    · apply ih (k + 1) (index_b + 1) _ (by omega) (by omega)
      rw [I32.succ_val index_b (by omega)]; push_cast; omega

/-- C5, as stated, fails on a buffer with `INT_MAX` payload elements: `b` is `INT_MAX`
followed by `2147483647` zeros, `a = [2, 1, 5]`, target 5. Both buffers are well formed
and `5 + 0 == 5`, so the vector overload on the payloads returns true; the
length-prefixed overload never returns true, whatever the fuel: its inner loop cannot
leave `index_b <= INT_MAX`; while `index_a` is still 1 it wraps `index_b` around and,
given fuel for the `2147483650` rounds this takes, reads outside the buffer. -/
theorem C5_counterexample_int_max_payload :
    (2 : I32).val = (([1, 5] : List I32).length : Int) ∧
    INT_MAX.val = ((List.replicate 2147483647 (0 : I32)).length : Int) ∧
    sum_of_two_others [1, 5] (List.replicate 2147483647 0) 5 = true ∧
    (∀ fuel : Nat,
      sum_of_two_others_prefixed fuel [2, 1, 5] (INT_MAX :: List.replicate 2147483647 0) 5 ≠
        some (.returned true)) ∧
    (∀ fuel : Nat, 2147483650 ≤ fuel →
      sum_of_two_others_prefixed fuel [2, 1, 5] (INT_MAX :: List.replicate 2147483647 0) 5 =
        some .outOfBounds) := by
  have hno : ∀ b ∈ INT_MAX :: List.replicate 2147483647 (0 : I32), (1 : I32) + b ≠ 5 := by
    intro b hb
    rcases List.mem_cons.1 hb with h | h
    · rw [h]; decide
    · rw [List.eq_of_mem_replicate h]; decide
  have h0 : readAt [2, 1, 5] 0 = some 2 := by decide
  have h1 : readAt [2, 1, 5] 1 = some 1 := by decide
  have hle : (1 : I32) ≤ 2 := by decide
  have hlen : (List.replicate 2147483647 (0 : I32)).length = 2147483647 :=
    List.length_replicate _ _
  refine ⟨by decide, ?_, ?_, ?_, ?_⟩
  · rw [hlen]; rfl
  · rw [sum_of_two_others_iff_mem]
    refine ⟨5, by simp, 0, ?_, by decide⟩
    rw [List.mem_replicate]
    exact ⟨by decide, rfl⟩
  · intro fuel
    cases fuel with
    | zero => intro h; cases h
    | succ fuel =>
      have hinner := prefixed_inner_int_max_no_match [2, 1, 5]
        (List.replicate 2147483647 0) 5 1 1 h1 hno fuel 1
      unfold sum_of_two_others_prefixed
      rw [prefixed_outer, h0]
      simp only [hle, if_true]
      rcases hinner with h | h
      · rw [h]
        simp only [reduceCtorEq, if_false]
        exact fun hcon => Option.noConfusion hcon
      · rw [h]
        simp only [Option.some.injEq, reduceCtorEq, if_false]
        exact fun hcon => Outcome.noConfusion (Option.some.inj hcon)
  · intro fuel hfuel
    obtain ⟨f, rfl⟩ : ∃ f, fuel = f + 1 := ⟨fuel - 1, by omega⟩
    have hinner := prefixed_inner_int_max_runs_off [2, 1, 5]
      (List.replicate 2147483647 0) 5 1 1 h1 hno hlen f 0 1
      (by rw [I32.val_one]; simp) (by omega) (by omega)
    unfold sum_of_two_others_prefixed
    rw [prefixed_outer, h0]
    simp only [hle, if_true]
    rw [hinner]
    simp only [Option.some.injEq, reduceCtorEq, if_false]

/-- C5, amended: for all buffers `a = len_a :: pa`, `b = len_b :: pb` whose first element
equals the number of elements that follow it and is below `INT_MAX`, and every target,
the length-prefixed overload returns (with fuel for `|pa| + |pb| + 1` rounds) what the
vector overload returns on the payloads `pa`, `pb`, the buffers with their first element
dropped; that is true iff there are `i` in `1..a[0]` and `j` in `1..b[0]` with
`a[i] + b[j] == target`. -/
theorem C5_prefixed_eq_vector_on_payloads (len_a len_b : I32) (pa pb : List I32)
    (target : I32)
    (ha : len_a.val = pa.length) (hb : len_b.val = pb.length)
    (ha2 : len_a.val < 2147483647) (hb2 : len_b.val < 2147483647) :
    (∀ fuel : Nat, pa.length + pb.length + 1 ≤ fuel →
      sum_of_two_others_prefixed fuel (len_a :: pa) (len_b :: pb) target =
        some (.returned (sum_of_two_others pa pb target))) ∧
    (sum_of_two_others pa pb target = true ↔
      ∃ i j : Nat, 1 ≤ i ∧ (i : Int) ≤ len_a.val ∧ 1 ≤ j ∧ (j : Int) ≤ len_b.val ∧
        ∃ x y : I32, (len_a :: pa).get? i = some x ∧ (len_b :: pb).get? j = some y ∧
          x + y = target) := by
  constructor
  · intro fuel hfuel
    have h := prefixed_outer_wellformed len_a len_b pa pb target ha hb ha2 hb2 fuel 0 1
      (by rw [I32.val_one]; simp) (by omega) (by omega)
    rw [List.drop_zero] at h
    exact h
  · rw [sum_of_two_others_iff_mem]
    constructor
    · rintro ⟨x, hx, y, hy, h⟩
      obtain ⟨i, hi⟩ := List.get_of_mem hx
      obtain ⟨j, hj⟩ := List.get_of_mem hy
      have hi2 := i.2
      have hj2 := j.2
      refine ⟨i.1 + 1, j.1 + 1, by omega, by push_cast; omega, by omega, by push_cast; omega,
        x, y, ?_, ?_, h⟩
      · rw [List.get?_cons_succ, List.get?_eq_get i.2]
        exact congrArg some hi
      · rw [List.get?_cons_succ, List.get?_eq_get j.2]
        exact congrArg some hj
    · rintro ⟨i, j, hi1, _, hj1, _, x, y, hx, hy, h⟩
      obtain ⟨i2, rfl⟩ : ∃ i2, i = i2 + 1 := ⟨i - 1, by omega⟩
      obtain ⟨j2, rfl⟩ : ∃ j2, j = j2 + 1 := ⟨j - 1, by omega⟩
      rw [List.get?_cons_succ] at hx hy
      exact ⟨x, List.get?_mem hx, y, List.get?_mem hy, h⟩

/-- The amended C5 on the buffers of `main`, `{5, 1, 2, 3, 4, 5}` twice: target 11 gives
false and target 10 gives true. -/
theorem C5_prefixed_eq_vector_on_payloads_witness :
    sum_of_two_others_prefixed 11 [5, 1, 2, 3, 4, 5] [5, 1, 2, 3, 4, 5] 11 =
      some (.returned false) ∧
    sum_of_two_others_prefixed 11 [5, 1, 2, 3, 4, 5] [5, 1, 2, 3, 4, 5] 10 =
      some (.returned true) :=
  ⟨(C5_prefixed_eq_vector_on_payloads 5 5 [1, 2, 3, 4, 5] [1, 2, 3, 4, 5] 11
      (by decide) (by decide) (by decide) (by decide)).1 11 (by decide),
   (C5_prefixed_eq_vector_on_payloads 5 5 [1, 2, 3, 4, 5] [1, 2, 3, 4, 5] 10
      (by decide) (by decide) (by decide) (by decide)).1 11 (by decide)⟩

/-! ## Claim C6: what the raw-buffer overloads do with any declared length -/

/-- A `for` loop ends in `outcome`, other than by running to its end, exactly when the
body yields `outcome` at some counter value and lets the loop go on at all earlier
ones. -/
theorem for_loop_range_eq_iff (body : Nat → Outcome) (outcome : Outcome)
    (hne : outcome ≠ .returned false) :
    ∀ (rounds start : Nat),
      for_loop (List.range' start rounds) body = outcome ↔
        ∃ c, start ≤ c ∧ c < start + rounds ∧ body c = outcome ∧
          ∀ d, start ≤ d → d < c → body d = .returned false := by
  intro rounds
  induction rounds with
  | zero =>
    intro start
    constructor
    · intro h
      exact absurd h.symm hne
    · rintro ⟨c, h1, h2, _⟩
      omega
  | succ rounds ih =>
    intro start
    rw [List.range'_succ, for_loop]
    cases hb : body start with
    | outOfBounds =>
      constructor
      · intro h
        exact ⟨start, by omega, by omega, by rw [hb]; exact h, fun d h1 h2 => by omega⟩
      · rintro ⟨c, h1, _, h3, h4⟩
        by_cases hc : c = start
        · rw [← h3, hc, hb]
        · have := h4 start (by omega) (by omega)
          rw [hb] at this
          cases this
    | returned v =>
      cases v with
      | true =>
        constructor
        · intro h
          exact ⟨start, by omega, by omega, by rw [hb]; exact h, fun d h1 h2 => by omega⟩
        · rintro ⟨c, h1, _, h3, h4⟩
          by_cases hc : c = start
          · rw [← h3, hc, hb]
          · have := h4 start (by omega) (by omega)
            rw [hb] at this
            cases this
      | false =>
        show for_loop (List.range' (start + 1) rounds) body = outcome ↔ _
        rw [ih (start + 1)]
        constructor
        · rintro ⟨c, h1, h2, h3, h4⟩
          refine ⟨c, by omega, by omega, h3, fun d hd1 hd2 => ?_⟩
          by_cases hd : d = start
          · rw [hd]; exact hb
          · exact h4 d (by omega) hd2
        · rintro ⟨c, h1, h2, h3, h4⟩
          have hc : c ≠ start := by
            intro hc
            rw [hc, hb] at h3
            exact hne h3.symm
          exact ⟨c, by omega, by omega, h3, fun d hd1 hd2 => h4 d (by omega) hd2⟩

/-- A `for` loop runs to its end exactly when the body lets it go on at every counter
value. -/
theorem for_loop_range_false_iff (body : Nat → Outcome) :
    ∀ (rounds start : Nat),
      for_loop (List.range' start rounds) body = .returned false ↔
        ∀ d, start ≤ d → d < start + rounds → body d = .returned false := by
  intro rounds
  induction rounds with
  | zero =>
    intro start
    constructor
    · intro _ d h1 h2
      omega
    · intro _
      rfl
  | succ rounds ih =>
    intro start
    rw [List.range'_succ, for_loop]
    cases hb : body start with
    | outOfBounds =>
      constructor
      · intro h; cases h
      · intro h
        have := h start (by omega) (by omega)
        rw [hb] at this
        cases this
    | returned v =>
      cases v with
      | true =>
        constructor
        · intro h; cases h
        · intro h
          have := h start (by omega) (by omega)
          rw [hb] at this
          cases this
      | false =>
        show for_loop (List.range' (start + 1) rounds) body = .returned false ↔ _
        rw [ih (start + 1)]
        constructor
        · intro h d h1 h2
          by_cases hd : d = start
          · rw [hd]; exact hb
          · exact h d (by omega) (by omega)
        · intro h d h1 h2
          exact h d (by omega) (by omega)

/-- Two nested `for` loops over `i < n` and `j < m` end in `outcome`, other than by
running to their end, exactly when the body yields `outcome` at some pair and lets the
loops go on at every pair scanned before it. -/
theorem scan_eq_iff (n m : Nat) (body : Nat → Nat → Outcome) (outcome : Outcome)
    (hne : outcome ≠ .returned false) :
    (for_loop (List.range n) fun i => for_loop (List.range m) (body i)) = outcome ↔
      ∃ i j, i < n ∧ j < m ∧ body i j = outcome ∧
        ∀ i2 j2, i2 < n → j2 < m → (i2 < i ∨ (i2 = i ∧ j2 < j)) →
          body i2 j2 = .returned false := by
  rw [List.range_eq_range', List.range_eq_range', for_loop_range_eq_iff _ _ hne]
  constructor
  · rintro ⟨i, _, hi, hin, hbefore⟩
    obtain ⟨j, _, hj, hb, hjb⟩ := (for_loop_range_eq_iff _ _ hne m 0).1 hin
    refine ⟨i, j, by omega, by omega, hb, fun i2 j2 hi2 hj2 hlt => ?_⟩
    rcases hlt with h | ⟨h1, h2⟩
    · exact (for_loop_range_false_iff _ m 0).1 (hbefore i2 (by omega) h) j2 (by omega)
        (by omega)
    · rw [h1]
      exact hjb j2 (by omega) h2
  · rintro ⟨i, j, hi, hj, hb, hbefore⟩
    refine ⟨i, by omega, by omega, ?_, fun i2 _ hi2 => ?_⟩
    · exact (for_loop_range_eq_iff _ _ hne m 0).2
        ⟨j, by omega, by omega, hb, fun d _ hd =>
          hbefore i d hi (by omega) (Or.inr ⟨rfl, hd⟩)⟩
    · exact (for_loop_range_false_iff _ m 0).2
        (fun d _ hd => hbefore i2 d (by omega) (by omega) (Or.inl hi2))

/-- Two nested `for` loops run to their end exactly when the body lets them go on at
every pair. -/
theorem scan_false_iff (n m : Nat) (body : Nat → Nat → Outcome) :
    (for_loop (List.range n) fun i => for_loop (List.range m) (body i)) =
        .returned false ↔
      ∀ i j, i < n → j < m → body i j = .returned false := by
  rw [List.range_eq_range', List.range_eq_range', for_loop_range_false_iff]
  constructor
  · intro h i j hi hj
    exact (for_loop_range_false_iff _ m 0).1 (h i (by omega) (by omega)) j (by omega)
      (by omega)
  · intro h i _ hi
    exact (for_loop_range_false_iff _ m 0).2 (fun j _ hj => h i j (by omega) (by omega))

theorem pair_true_iff (x y : Option I32) (target : I32) :
    (match x, y with
      | some a, some b => Outcome.returned (a + b == target)
      | _, _ => Outcome.outOfBounds) = .returned true ↔
      ∃ a b, x = some a ∧ y = some b ∧ a + b = target := by
  cases x <;> cases y <;> simp

theorem pair_false_iff (x y : Option I32) (target : I32) :
    (match x, y with
      | some a, some b => Outcome.returned (a + b == target)
      | _, _ => Outcome.outOfBounds) = .returned false ↔
      ∃ a b, x = some a ∧ y = some b ∧ a + b ≠ target := by
  cases x <;> cases y <;> simp

theorem pair_outside_iff (x y : Option I32) (target : I32) :
    (match x, y with
      | some a, some b => Outcome.returned (a + b == target)
      | _, _ => Outcome.outOfBounds) = .outOfBounds ↔
      (x = none ∨ y = none) := by
  cases x <;> cases y <;> simp

/-- With `array_b[0] < INT_MAX` the inner loop of the length-prefixed overload, entered
at `index_b = k + 1`, is a `for` loop over the payload positions `k, ..., array_b[0] - 1`
(none when `array_b[0] <= k`). -/
theorem prefixed_inner_eq_loop (array_a : List I32) (len_b : I32) (pb : List I32)
    (target index_a : I32) (hb2 : len_b.val < 2147483647) :
    ∀ (fuel rounds k : Nat) (index_b : I32), index_b.val = (k : Int) + 1 →
      k + rounds = len_b.val.toNat → rounds < fuel →
      prefixed_inner array_a (len_b :: pb) target index_a fuel index_b =
        some (for_loop (List.range' k rounds) fun j =>
          match readAt array_a index_a, pb.get? j with
          | some a, some b => .returned (a + b == target)
          | _, _ => .outOfBounds) := by
  intro fuel
  induction fuel with
  | zero => intro rounds k index_b _ _ h; omega
  | succ fuel ih =>
    intro rounds k index_b hidx hsum hfuel
    rw [prefixed_inner, readAt_cons_zero]
    cases rounds with
    | zero =>
      have hgt : ¬ index_b ≤ len_b := by rw [I32.le_iff_val]; omega
      simp only [hgt, if_false]
      rfl
    | succ rounds =>
      have hle : index_b ≤ len_b := by rw [I32.le_iff_val]; omega
      have hnext : (index_b + 1).val = ((k + 1 : Nat) : Int) + 1 := by
        rw [I32.succ_val index_b (by omega)]; push_cast; omega
      have hrec := ih rounds (k + 1) (index_b + 1) hnext (by omega) (by omega)
      rw [readAt_cons_succ len_b pb index_b k hidx, List.range'_succ, for_loop]
      simp only [hle, if_true]
      cases hx : readAt array_a index_a with
      | none => rfl
      | some a =>
        cases hy : pb.get? k with
        | none => rfl
        | some b =>
          simp only [hx] at hrec
          cases hbeq : (a + b == target)
          · simp only [hbeq, hrec]
            simp
          · simp only [hbeq]
            simp

theorem prefixed_outer_step (body : Nat → Outcome) (k : Nat) (rest : List Nat)
    (inner : Outcome) (hinner : body k = inner) (next : Option Outcome)
    (hnext : next = some (for_loop rest body)) :
    (if some inner = some (Outcome.returned false) then next else some inner) =
      some (for_loop (k :: rest) body) := by
  rw [for_loop, hinner, hnext]
  cases inner with
  | outOfBounds => simp
  | returned v => cases v <;> simp

/-- With both declared lengths below `INT_MAX` the outer loop of the length-prefixed
overload, entered at `index_a = k + 1`, is the pair of nested `for` loops over the
payload positions `k, ..., array_a[0] - 1` and `0, ..., array_b[0] - 1`. -/
theorem prefixed_outer_eq_scan (len_a len_b : I32) (pa pb : List I32) (target : I32)
    (ha2 : len_a.val < 2147483647) (hb2 : len_b.val < 2147483647) :
    ∀ (fuel rounds k : Nat) (index_a : I32), index_a.val = (k : Int) + 1 →
      k + rounds = len_a.val.toNat → rounds + len_b.val.toNat + 1 ≤ fuel →
      prefixed_outer (len_a :: pa) (len_b :: pb) target fuel index_a =
        some (for_loop (List.range' k rounds) fun i =>
          for_loop (List.range len_b.val.toNat) fun j =>
            match pa.get? i, pb.get? j with
            | some a, some b => .returned (a + b == target)
            | _, _ => .outOfBounds) := by
  intro fuel
  induction fuel with
  | zero => intro rounds k index_a _ _ h; omega
  | succ fuel ih =>
    intro rounds k index_a hidx hsum hfuel
    rw [prefixed_outer, readAt_cons_zero]
    cases rounds with
    | zero =>
      have hgt : ¬ index_a ≤ len_a := by rw [I32.le_iff_val]; omega
      simp only [hgt, if_false]
      rfl
    | succ rounds =>
      have hle : index_a ≤ len_a := by rw [I32.le_iff_val]; omega
      have hnext : (index_a + 1).val = ((k + 1 : Nat) : Int) + 1 := by
        rw [I32.succ_val index_a (by omega)]; push_cast; omega
      have hrec := ih rounds (k + 1) (index_a + 1) hnext (by omega) (by omega)
      have hinner := prefixed_inner_eq_loop (len_a :: pa) len_b pb target index_a hb2 fuel
        len_b.val.toNat 0 1 (by rw [I32.val_one]; simp) (by omega) (by omega)
      rw [readAt_cons_succ len_a pa index_a k hidx, ← List.range_eq_range'] at hinner
      rw [hinner, List.range'_succ]
      simp only [hle, if_true]
      exact prefixed_outer_step _ k _ _ rfl _ hrec

/-- The outcome of the nested loops over `i < n`, `j < m` with the body
`if (a[i] + b[j] == target) return true;` on buffers `a`, `b`: true at the first
matching pair when every pair before it lies inside both buffers, a read outside a
buffer at the first pair with an index outside when no pair before it matches, false
when every pair lies inside and none matches. -/
theorem scan_reads (n m : Nat) (a b : List I32) (target : I32) :
    ((for_loop (List.range n) fun i => for_loop (List.range m) fun j =>
        match a.get? i, b.get? j with
        | some x, some y => Outcome.returned (x + y == target)
        | _, _ => Outcome.outOfBounds) = .returned true ↔
      ∃ i j, i < n ∧ j < m ∧ (∃ x y, a.get? i = some x ∧ b.get? j = some y ∧ x + y = target) ∧
        ∀ i2 j2, i2 < n → j2 < m → (i2 < i ∨ (i2 = i ∧ j2 < j)) →
          ∃ x y, a.get? i2 = some x ∧ b.get? j2 = some y ∧ x + y ≠ target) ∧
    ((for_loop (List.range n) fun i => for_loop (List.range m) fun j =>
        match a.get? i, b.get? j with
        | some x, some y => Outcome.returned (x + y == target)
        | _, _ => Outcome.outOfBounds) = .outOfBounds ↔
      ∃ i j, i < n ∧ j < m ∧ (a.get? i = none ∨ b.get? j = none) ∧
        ∀ i2 j2, i2 < n → j2 < m → (i2 < i ∨ (i2 = i ∧ j2 < j)) →
          ∃ x y, a.get? i2 = some x ∧ b.get? j2 = some y ∧ x + y ≠ target) ∧
    ((for_loop (List.range n) fun i => for_loop (List.range m) fun j =>
        match a.get? i, b.get? j with
        | some x, some y => Outcome.returned (x + y == target)
        | _, _ => Outcome.outOfBounds) = .returned false ↔
      ∀ i j, i < n → j < m →
        ∃ x y, a.get? i = some x ∧ b.get? j = some y ∧ x + y ≠ target) := by
  refine ⟨?_, ?_, ?_⟩
  · rw [scan_eq_iff n m _ _ (by simp)]
    simp only [pair_true_iff, pair_false_iff]
  · rw [scan_eq_iff n m _ _ (by simp)]
    simp only [pair_outside_iff, pair_false_iff]
  · rw [scan_false_iff n m]
    simp only [pair_false_iff]

/-- Positions `i < n`, `j < m` of the payloads are the indices `1 <= i <= a[0]`,
`1 <= j <= b[0]` of the buffers. -/
theorem first_pair_shift (n m : Nat) (Ba Bb : Nat → Prop) (P Q P2 Q2 : Nat → Nat → Prop)
    (hBa : ∀ i, Ba (i + 1) ↔ i < n) (hBb : ∀ j, Bb (j + 1) ↔ j < m)
    (hP : ∀ i j, P2 (i + 1) (j + 1) ↔ P i j) (hQ : ∀ i j, Q2 (i + 1) (j + 1) ↔ Q i j) :
    (∃ i j, i < n ∧ j < m ∧ P i j ∧
      ∀ i2 j2, i2 < n → j2 < m → (i2 < i ∨ (i2 = i ∧ j2 < j)) → Q i2 j2) ↔
    (∃ i j, 1 ≤ i ∧ Ba i ∧ 1 ≤ j ∧ Bb j ∧ P2 i j ∧
      ∀ i2 j2, 1 ≤ i2 → Ba i2 → 1 ≤ j2 → Bb j2 → (i2 < i ∨ (i2 = i ∧ j2 < j)) →
        Q2 i2 j2) := by
  constructor
  · rintro ⟨i, j, hi, hj, hp, hq⟩
    refine ⟨i + 1, j + 1, by omega, (hBa i).2 hi, by omega, (hBb j).2 hj, (hP i j).2 hp, ?_⟩
    intro i2 j2 h1 h2 h3 h4 h5
    obtain ⟨i3, rfl⟩ : ∃ i3, i2 = i3 + 1 := ⟨i2 - 1, by omega⟩
    obtain ⟨j3, rfl⟩ : ∃ j3, j2 = j3 + 1 := ⟨j2 - 1, by omega⟩
    exact (hQ i3 j3).2 (hq i3 j3 ((hBa i3).1 h2) ((hBb j3).1 h4) (by omega))
  · rintro ⟨i, j, hi1, hi, hj1, hj, hp, hq⟩
    obtain ⟨i0, rfl⟩ : ∃ i0, i = i0 + 1 := ⟨i - 1, by omega⟩
    obtain ⟨j0, rfl⟩ : ∃ j0, j = j0 + 1 := ⟨j - 1, by omega⟩
    refine ⟨i0, j0, (hBa i0).1 hi, (hBb j0).1 hj, (hP i0 j0).1 hp, ?_⟩
    intro i2 j2 h1 h2 h3
    exact (hQ i2 j2).1 (hq (i2 + 1) (j2 + 1) (by omega) ((hBa i2).2 h1) (by omega)
      ((hBb j2).2 h2) (by omega))

theorem all_pairs_shift (n m : Nat) (Ba Bb : Nat → Prop) (Q Q2 : Nat → Nat → Prop)
    (hBa : ∀ i, Ba (i + 1) ↔ i < n) (hBb : ∀ j, Bb (j + 1) ↔ j < m)
    (hQ : ∀ i j, Q2 (i + 1) (j + 1) ↔ Q i j) :
    (∀ i j, i < n → j < m → Q i j) ↔
    (∀ i j, 1 ≤ i → Ba i → 1 ≤ j → Bb j → Q2 i j) := by
  constructor
  · intro h i j h1 h2 h3 h4
    obtain ⟨i0, rfl⟩ : ∃ i0, i = i0 + 1 := ⟨i - 1, by omega⟩
    obtain ⟨j0, rfl⟩ : ∃ j0, j = j0 + 1 := ⟨j - 1, by omega⟩
    exact (hQ i0 j0).2 (h i0 j0 ((hBa i0).1 h2) ((hBb j0).1 h4))
  · intro h i j hi hj
    exact (hQ i j).1 (h (i + 1) (j + 1) (by omega) ((hBa i).2 hi) (by omega) ((hBb j).2 hj))

/-- C6, as stated, fails: no overload checks a declared length. With a declared length
beyond the buffer the explicit-lengths overload returns true (`array_a_len = 3` on
`a = {5}`, target 10) or reads outside the buffer (target 11), and returns false when
only the unused `array_b_len` is too large; the length-prefixed overload returns true
(`a = {3, 5}`, `b = {1, 5}`, target 10), returns false (`a = {3, 5}`, `b = {0}`) or reads
outside the buffer (target 11). -/
theorem C6_counterexample_no_length_check :
    sum_of_two_others_lens 3 [5] 1 [5] 10 = .returned true ∧
    sum_of_two_others_lens 3 [5] 1 [5] 11 = .outOfBounds ∧
    sum_of_two_others_lens 1 [1] 5 [1] 3 = .returned false ∧
    sum_of_two_others_prefixed 5 [3, 5] [1, 5] 10 = some (.returned true) ∧
    sum_of_two_others_prefixed 5 [3, 5] [0] 10 = some (.returned false) ∧
    sum_of_two_others_prefixed 5 [3, 5] [1, 5] 11 = some .outOfBounds := by
  decide

/-- C6, amended: the raw-buffer overloads check no declared length and have no
`InvalidArgument` failure, whatever the declared lengths. The call scans the index pairs
in loop order: `0 <= i, j < len` in the explicit-lengths overload called with both
lengths `len`, and `1 <= i <= a[0]`, `1 <= j <= b[0]` in the length-prefixed overload
with declared lengths below `INT_MAX` (there the outcome is reached with fuel for
`a[0] + b[0] + 1` rounds). It returns true iff some scanned pair lies inside both buffers
and sums to the target while every pair scanned before it lies inside both buffers and
does not. It reads outside a buffer iff some scanned pair has an index outside its
buffer while every pair scanned before it lies inside both buffers and does not sum to
the target; what the run does after that read is undefined and is not described. It
returns false, with no read outside a buffer, iff every scanned pair lies inside both
buffers and none sums to the target. -/
theorem C6_raw_buffer_scan_outcomes :
    (∀ (len : I32) (array_a array_b : List I32) (target : I32),
      (sum_of_two_others_lens len array_a len array_b target = .returned true ↔
        ∃ i j : Nat, (i : Int) < len.val ∧ (j : Int) < len.val ∧
          (∃ x y, array_a.get? i = some x ∧ array_b.get? j = some y ∧ x + y = target) ∧
          ∀ i2 j2 : Nat, (i2 : Int) < len.val → (j2 : Int) < len.val →
            (i2 < i ∨ (i2 = i ∧ j2 < j)) →
            ∃ x y, array_a.get? i2 = some x ∧ array_b.get? j2 = some y ∧ x + y ≠ target) ∧
      (sum_of_two_others_lens len array_a len array_b target = .outOfBounds ↔
        ∃ i j : Nat, (i : Int) < len.val ∧ (j : Int) < len.val ∧
          (array_a.get? i = none ∨ array_b.get? j = none) ∧
          ∀ i2 j2 : Nat, (i2 : Int) < len.val → (j2 : Int) < len.val →
            (i2 < i ∨ (i2 = i ∧ j2 < j)) →
            ∃ x y, array_a.get? i2 = some x ∧ array_b.get? j2 = some y ∧ x + y ≠ target) ∧
      (sum_of_two_others_lens len array_a len array_b target = .returned false ↔
        ∀ i j : Nat, (i : Int) < len.val → (j : Int) < len.val →
          ∃ x y, array_a.get? i = some x ∧ array_b.get? j = some y ∧ x + y ≠ target)) ∧
    (∀ (len_a len_b : I32) (pa pb : List I32) (target : I32),
      len_a.val < 2147483647 → len_b.val < 2147483647 →
      ∃ outcome : Outcome,
        (∀ fuel : Nat, len_a.val.toNat + len_b.val.toNat + 1 ≤ fuel →
          sum_of_two_others_prefixed fuel (len_a :: pa) (len_b :: pb) target =
            some outcome) ∧
        (outcome = .returned true ↔
          ∃ i j : Nat, 1 ≤ i ∧ (i : Int) ≤ len_a.val ∧ 1 ≤ j ∧ (j : Int) ≤ len_b.val ∧
            (∃ x y, (len_a :: pa).get? i = some x ∧ (len_b :: pb).get? j = some y ∧
              x + y = target) ∧
            ∀ i2 j2 : Nat, 1 ≤ i2 → (i2 : Int) ≤ len_a.val → 1 ≤ j2 →
              (j2 : Int) ≤ len_b.val → (i2 < i ∨ (i2 = i ∧ j2 < j)) →
              ∃ x y, (len_a :: pa).get? i2 = some x ∧ (len_b :: pb).get? j2 = some y ∧
                x + y ≠ target) ∧
        (outcome = .outOfBounds ↔
          ∃ i j : Nat, 1 ≤ i ∧ (i : Int) ≤ len_a.val ∧ 1 ≤ j ∧ (j : Int) ≤ len_b.val ∧
            ((len_a :: pa).get? i = none ∨ (len_b :: pb).get? j = none) ∧
            ∀ i2 j2 : Nat, 1 ≤ i2 → (i2 : Int) ≤ len_a.val → 1 ≤ j2 →
              (j2 : Int) ≤ len_b.val → (i2 < i ∨ (i2 = i ∧ j2 < j)) →
              ∃ x y, (len_a :: pa).get? i2 = some x ∧ (len_b :: pb).get? j2 = some y ∧
                x + y ≠ target) ∧
        (outcome = .returned false ↔
          ∀ i j : Nat, 1 ≤ i → (i : Int) ≤ len_a.val → 1 ≤ j → (j : Int) ≤ len_b.val →
            ∃ x y, (len_a :: pa).get? i = some x ∧ (len_b :: pb).get? j = some y ∧
              x + y ≠ target)) := by
  constructor
  · intro len array_a array_b target
    have hn : ∀ i : Nat, (i : Int) < len.val ↔ i < len.val.toNat := fun i => by omega
    have h := scan_reads len.val.toNat len.val.toNat array_a array_b target
    simp only [hn]
    exact h
  · intro len_a len_b pa pb target ha2 hb2
    have h := scan_reads len_a.val.toNat len_b.val.toNat pa pb target
    refine ⟨for_loop (List.range len_a.val.toNat) fun i =>
        for_loop (List.range len_b.val.toNat) fun j =>
          match pa.get? i, pb.get? j with
          | some x, some y => Outcome.returned (x + y == target)
          | _, _ => Outcome.outOfBounds,
      fun fuel hfuel => ?_, ?_, ?_, ?_⟩
    · have hrun := prefixed_outer_eq_scan len_a len_b pa pb target ha2 hb2 fuel
        len_a.val.toNat 0 1 (by rw [I32.val_one]; simp) (by omega) (by omega)
      rw [← List.range_eq_range'] at hrun
      exact hrun
    · rw [h.1]
      exact first_pair_shift _ _ (fun i => (i : Int) ≤ len_a.val)
        (fun j => (j : Int) ≤ len_b.val) _ _ _ _ (fun i => by simp only []; omega)
        (fun j => by simp only []; omega) (fun i j => by simp) (fun i j => by simp)
    · rw [h.2.1]
      exact first_pair_shift _ _ (fun i => (i : Int) ≤ len_a.val)
        (fun j => (j : Int) ≤ len_b.val) _ _ _ _ (fun i => by simp only []; omega)
        (fun j => by simp only []; omega) (fun i j => by simp) (fun i j => by simp)
    · rw [h.2.2]
      exact all_pairs_shift _ _ (fun i => (i : Int) ≤ len_a.val)
        (fun j => (j : Int) ≤ len_b.val) _ _ (fun i => by simp only []; omega)
        (fun j => by simp only []; omega) (fun i j => by simp)

/-- The amended C6 on calls whose declared length 3 exceeds the one element that is
there: `array_a_len = array_b_len = 3` on `a = {5}`, `b = {5}` and the buffers
`a = {3, 5}`, `b = {1, 5}`. With target 10 the first pair matches and the call returns
true; with target 11 it does not and the next pair is outside a buffer. -/
theorem C6_raw_buffer_scan_outcomes_witness :
    sum_of_two_others_lens 3 [5] 3 [5] 10 = .returned true ∧
    sum_of_two_others_lens 3 [5] 3 [5] 11 = .outOfBounds ∧
    sum_of_two_others_prefixed 5 [3, 5] [1, 5] 10 = some (.returned true) ∧
    sum_of_two_others_prefixed 5 [3, 5] [1, 5] 11 = some .outOfBounds := by
  refine ⟨?_, ?_, ?_, ?_⟩
  · exact (C6_raw_buffer_scan_outcomes.1 3 [5] [5] 10).1.2
      ⟨0, 0, by decide, by decide, ⟨5, 5, rfl, rfl, by decide⟩,
        fun i2 j2 _ _ h => by omega⟩
  · refine (C6_raw_buffer_scan_outcomes.1 3 [5] [5] 11).2.1.2
      ⟨0, 1, by decide, by decide, Or.inr rfl, fun i2 j2 _ _ h => ?_⟩
    have hi : i2 = 0 := by omega
    have hj : j2 = 0 := by omega
    subst hi hj
    exact ⟨5, 5, rfl, rfl, by decide⟩
  · obtain ⟨outcome, hrun, htrue, _, _⟩ :=
      C6_raw_buffer_scan_outcomes.2 3 1 [5] [5] 10 (by decide) (by decide)
    rw [hrun 5 (by decide)]
    exact congrArg some (htrue.2
      ⟨1, 1, by decide, by decide, by decide, by decide, ⟨5, 5, rfl, rfl, by decide⟩,
        fun i2 j2 _ _ _ _ h => by omega⟩)
  · obtain ⟨outcome, hrun, _, houtside, _⟩ :=
      C6_raw_buffer_scan_outcomes.2 3 1 [5] [5] 11 (by decide) (by decide)
    rw [hrun 5 (by decide)]
    refine congrArg some (houtside.2
      ⟨2, 1, by decide, by decide, by decide, by decide, Or.inl rfl,
        fun i2 j2 h1 _ h3 h4 h => ?_⟩)
    have hj0 : (1 : I32).val = 1 := rfl
    rw [hj0] at h4
    have hj : j2 = 1 := by omega
    have hi : i2 = 1 := by omega
    subst hi hj
    exact ⟨5, 5, rfl, rfl, by decide⟩

/-! ## Claims C7-C10: the vector overloads -/

/-- C7, as stated, fails: with `A = [2147483647]`, `B = [1]` and target `-2147483648`
the exact sum of the only pair is `2147483648`, not the target, and the call returns
true all the same. -/
theorem C7_counterexample_wrapped_sum_matches :
    ¬ (sum_of_two_others [INT_MAX] [1] INT_MIN = true ↔
        ∃ (i : Fin ([INT_MAX] : List I32).length) (j : Fin ([1] : List I32).length),
          (([INT_MAX] : List I32).get i).val + (([1] : List I32).get j).val = INT_MIN.val) := by
  decide

/-- C7, amended: the pair sum is formed in `int`, with no wider accumulator. The vector
overload returns true iff the sum of some pair, wrapped around to 32 bits, equals the
target; when the exact sum of every pair lies in the 32-bit range, that is iff the exact
sum of some pair equals the target. -/
theorem C7_vector_true_iff_wrapped_sum (A B : List I32) (target : I32) :
    (sum_of_two_others A B target = true ↔
      ∃ (i : Fin A.length) (j : Fin B.length),
        wrap ((A.get i).val + (B.get j).val) = target) ∧
    ((∀ (i : Fin A.length) (j : Fin B.length),
        -2147483648 ≤ (A.get i).val + (B.get j).val ∧
          (A.get i).val + (B.get j).val ≤ 2147483647) →
      (sum_of_two_others A B target = true ↔
        ∃ (i : Fin A.length) (j : Fin B.length),
          (A.get i).val + (B.get j).val = target.val)) := by
  have hidx : sum_of_two_others A B target = true ↔
      ∃ (i : Fin A.length) (j : Fin B.length), A.get i + B.get j = target := by
    rw [sum_of_two_others_iff_mem]
    constructor
    · rintro ⟨a, ha, b, hb, h⟩
      obtain ⟨i, rfl⟩ := List.get_of_mem ha
      obtain ⟨j, rfl⟩ := List.get_of_mem hb
      exact ⟨i, j, h⟩
    · rintro ⟨i, j, h⟩
      exact ⟨A.get i, List.get_mem A i.1 i.2, B.get j, List.get_mem B j.1 j.2, h⟩
  refine ⟨hidx, fun hrange => ?_⟩
  rw [hidx]
  constructor
  · rintro ⟨i, j, h⟩
    refine ⟨i, j, ?_⟩
    rw [← h]
    exact (I32.add_val_of_range _ _ (hrange i j).1 (hrange i j).2).symm
  · rintro ⟨i, j, h⟩
    refine ⟨i, j, I32.eq_of_val_eq ?_⟩
    rw [I32.add_val_of_range _ _ (hrange i j).1 (hrange i j).2]
    exact h

/-- The amended C7 at `A = [-3, 1, 7]`, `B = [7, 10]`, target 4: no pair overflows and
`-3 + 7 = 4`. -/
theorem C7_vector_true_iff_wrapped_sum_witness :
    sum_of_two_others [-3, 1, 7] [7, 10] 4 = true ↔
      ∃ (i : Fin ([-3, 1, 7] : List I32).length) (j : Fin ([7, 10] : List I32).length),
        (([-3, 1, 7] : List I32).get i).val + (([7, 10] : List I32).get j).val = (4 : I32).val :=
  (C7_vector_true_iff_wrapped_sum [-3, 1, 7] [7, 10] 4).2 (by decide)

/-- C8: empty-input law. For all sequences A, B and every target T,
`sum_of_two_others([], B, T)` is false and `sum_of_two_others(A, [], T)` is false; so it
is at `A = []`, `B = [1, 2]`, `T = 3`. -/
theorem C8_empty_input_false :
    (∀ (A B : List I32) (T : I32),
      sum_of_two_others [] B T = false ∧ sum_of_two_others A [] T = false) ∧
    sum_of_two_others [] [1, 2] 3 = false := by
  refine ⟨fun A B T => ⟨rfl, ?_⟩, by decide⟩
  simp [sum_of_two_others]

/-- C9: order independence. For every permutation `A2` of `A` and `B2` of `B` and every
target T, `sum_of_two_others(A2, B2, T) == sum_of_two_others(A, B, T)`, and likewise for
the hash-based `sum_of_two_others2` on vectors. -/
theorem C9_order_independence (A A2 B B2 : List I32) (T : I32)
    (hA : A2.Perm A) (hB : B2.Perm B) :
    sum_of_two_others A2 B2 T = sum_of_two_others A B T ∧
    sum_of_two_others2 A2 B2 T = sum_of_two_others2 A B T := by
  constructor
  · apply bool_eq_of_iff
    rw [sum_of_two_others_iff_mem, sum_of_two_others_iff_mem]
    simp only [hA.mem_iff, hB.mem_iff]
  · apply bool_eq_of_iff
    rw [sum_of_two_others2_iff_mem, sum_of_two_others2_iff_mem]
    simp only [hA.mem_iff, hB.mem_iff]

/-- C9 at `A = [1, 2, 3]` shuffled to `[3, 1, 2]` and `B = [4, 5]` swapped, target 7. -/
theorem C9_order_independence_witness :
    sum_of_two_others [3, 1, 2] [5, 4] 7 = sum_of_two_others [1, 2, 3] [4, 5] 7 ∧
    sum_of_two_others2 [3, 1, 2] [5, 4] 7 = sum_of_two_others2 [1, 2, 3] [4, 5] 7 :=
  C9_order_independence [1, 2, 3] [3, 1, 2] [4, 5] [5, 4] 7 (by decide) (by decide)

/-- C10: the set built at the start of `sum_of_two_others2` depends only on the set of
distinct values of A. When A1 and A2 contain the same values (they differ only in
duplicates and order), the sets built from them are equal, and
`sum_of_two_others2(A1, B, T) == sum_of_two_others2(A2, B, T)` for every B and T. -/
theorem C10_set_depends_on_distinct_values (A1 A2 : List I32)
    (h : ∀ x, x ∈ A1 ↔ x ∈ A2) :
    unordered_set_of A1 = unordered_set_of A2 ∧
    ∀ (B : List I32) (T : I32), sum_of_two_others2 A1 B T = sum_of_two_others2 A2 B T := by
  have hset : unordered_set_of A1 = unordered_set_of A2 := by
    apply Finset.ext
    intro x
    rw [mem_unordered_set_of, mem_unordered_set_of]
    exact h x
  refine ⟨hset, fun B T => ?_⟩
  rw [sum_of_two_others2_eq_set, sum_of_two_others2_eq_set, hset]

/-- C10 at `A1 = [1, 2, 2, 3]` and `A2 = [3, 1, 2, 1]`: the same three values. -/
theorem C10_set_depends_on_distinct_values_witness :
    unordered_set_of [1, 2, 2, 3] = unordered_set_of [3, 1, 2, 1] ∧
    ∀ (B : List I32) (T : I32),
      sum_of_two_others2 [1, 2, 2, 3] B T = sum_of_two_others2 [3, 1, 2, 1] B T :=
  C10_set_depends_on_distinct_values [1, 2, 2, 3] [3, 1, 2, 1] (by
    intro x
    simp only [List.mem_cons, List.mem_singleton]
    tauto)

/-! ## Claims C11, C12, C16, C19: more on the pair-sum overloads -/

/-- C11: self-pairing across the two sequences is permitted. For every value `v` that
occurs in both A and B the query with target `v + v` returns true, in the linear-scan
`sum_of_two_others`, in `sum_of_two_others2` on vectors, and in `sum_of_two_others2` on
a set that holds `v`. -/
theorem C11_self_pairing_across_sequences (A B : List I32) (S : Finset I32) (v : I32)
    (hA : v ∈ A) (hB : v ∈ B) (hS : v ∈ S) :
    sum_of_two_others A B (v + v) = true ∧
    sum_of_two_others2 A B (v + v) = true ∧
    sum_of_two_others2_set S B (v + v) = true := by
  have hsub : v + v - v = v := ((I32.add_eq_iff_eq_sub v v (v + v)).1 rfl).symm
  refine ⟨?_, ?_, ?_⟩
  · rw [sum_of_two_others_iff_mem]
    exact ⟨v, hA, v, hB, rfl⟩
  · rw [sum_of_two_others2_iff_mem]
    exact ⟨v, hB, by rw [hsub]; exact hA⟩
  · rw [sum_of_two_others2_set_iff_mem]
    exact ⟨v, hB, by rw [hsub]; exact hS⟩

/-- C11 at `A = [5]`, `B = [5]`, the set `{5}`, target `10 = 5 + 5`. -/
theorem C11_self_pairing_across_sequences_witness :
    sum_of_two_others [5] [5] 10 = true ∧
    sum_of_two_others2 [5] [5] 10 = true ∧
    sum_of_two_others2_set {5} [5] 10 = true :=
  C11_self_pairing_across_sequences [5] [5] {5} 5 (by decide) (by decide) (by decide)

/-- C12: evaluation of the explicit-lengths overload at the failing input. With
`array_a_len = 3`, `a = {1, 2, 3}`, `array_b_len = 1`, `b = {4}` the lengths are the
physical ones, and the call with target 100 reads `b[1]`, outside the buffer: the inner
loop runs `index_b` up to `array_a_len`. -/
theorem C12_lens_reads_outside_well_shaped_input :
    (([1, 2, 3] : List I32).length : Int) = (3 : I32).val ∧
    (([4] : List I32).length : Int) = (1 : I32).val ∧
    ([4] : List I32).get? 1 = none ∧
    sum_of_two_others_lens 3 [1, 2, 3] 1 [4] 100 = .outOfBounds := by
  decide

theorem for_loop_eq_any (counters : List Nat) (body : Nat → Outcome) (f : Nat → Bool)
    (h : ∀ c ∈ counters, body c = .returned (f c)) :
    for_loop counters body = .returned (counters.any f) := by
  induction counters with
  | nil => rfl
  | cons c rest ih =>
    have hc := h c (List.mem_cons_self c rest)
    have hrest := ih (fun d hd => h d (List.mem_cons_of_mem c hd))
    rw [for_loop, hc, List.any_cons]
    cases hf : f c
    · simpa using hrest
    · rfl

/-- With both buffers holding at least `array_a_len` elements the explicit-lengths
overload returns whether some `a[i] + b[j]` with `i, j < array_a_len` is the target. -/
theorem sum_of_two_others_lens_in_bounds (array_a_len : I32) (array_a : List I32)
    (array_b_len : I32) (array_b : List I32) (target : I32)
    (ha : array_a_len.val ≤ array_a.length) (hb : array_a_len.val ≤ array_b.length) :
    sum_of_two_others_lens array_a_len array_a array_b_len array_b target =
      .returned ((List.range array_a_len.val.toNat).any fun i =>
        (List.range array_a_len.val.toNat).any fun j =>
          match array_a.get? i, array_b.get? j with
          | some a, some b => a + b == target
          | _, _ => false) := by
  unfold sum_of_two_others_lens
  apply for_loop_eq_any
  intro i hi
  apply for_loop_eq_any
  intro j hj
  rw [List.mem_range] at hi hj
  have hi2 : i < array_a.length := by omega
  have hj2 : j < array_b.length := by omega
  rw [List.get?_eq_get hi2, List.get?_eq_get hj2]

/-- C16: the explicit-lengths overload ignores `array_b_len`. For all arrays a, b that
each hold at least `array_a_len` elements, every `array_b_len` and every target, the call
returns a Boolean that does not depend on `array_b_len` and is true iff there are
`0 <= i < array_a_len` and `0 <= j < array_a_len` with `a[i] + b[j] == target`; when
both arrays have exactly `array_a_len` elements it returns what the vector overload
returns. -/
theorem C16_lens_ignores_array_b_len (array_a_len : I32) (array_a : List I32)
    (array_b_len : I32) (array_b : List I32) (target : I32)
    (ha : array_a_len.val ≤ array_a.length) (hb : array_a_len.val ≤ array_b.length) :
    (∃ r : Bool,
      (∀ any_b_len : I32,
        sum_of_two_others_lens array_a_len array_a any_b_len array_b target = .returned r) ∧
      (r = true ↔ ∃ i j : Nat, (i : Int) < array_a_len.val ∧ (j : Int) < array_a_len.val ∧
        ∃ a b : I32, array_a.get? i = some a ∧ array_b.get? j = some b ∧
          a + b = target)) ∧
    ((array_a.length : Int) = array_a_len.val → (array_b.length : Int) = array_a_len.val →
      sum_of_two_others_lens array_a_len array_a array_b_len array_b target =
        .returned (sum_of_two_others array_a array_b target)) := by
  have hiff : ((List.range array_a_len.val.toNat).any fun i =>
        (List.range array_a_len.val.toNat).any fun j =>
          match array_a.get? i, array_b.get? j with
          | some a, some b => a + b == target
          | _, _ => false) = true ↔
      ∃ i j : Nat, (i : Int) < array_a_len.val ∧ (j : Int) < array_a_len.val ∧
        ∃ a b : I32, array_a.get? i = some a ∧ array_b.get? j = some b ∧
          a + b = target := by
    simp only [List.any_eq_true, List.mem_range]
    constructor
    · rintro ⟨i, hi, j, hj, h⟩
      have hi2 : i < array_a.length := by omega
      have hj2 : j < array_b.length := by omega
      rw [List.get?_eq_get hi2, List.get?_eq_get hj2] at h
      exact ⟨i, j, by omega, by omega, _, _, List.get?_eq_get hi2, List.get?_eq_get hj2,
        by simpa using h⟩
    · rintro ⟨i, j, hi, hj, a, b, hxa, hxb, h⟩
      refine ⟨i, by omega, j, by omega, ?_⟩
      rw [hxa, hxb]
      simpa using h
  constructor
  · refine ⟨_, fun any_b_len =>
      sum_of_two_others_lens_in_bounds array_a_len array_a any_b_len array_b target ha hb,
      hiff⟩
  · intro hla hlb
    rw [sum_of_two_others_lens_in_bounds array_a_len array_a array_b_len array_b target ha hb]
    congr 1
    apply bool_eq_of_iff
    rw [hiff, sum_of_two_others_iff_mem]
    constructor
    · rintro ⟨i, j, _, _, a, b, hxa, hxb, h⟩
      exact ⟨a, List.get?_mem hxa, b, List.get?_mem hxb, h⟩
    · rintro ⟨a, hma, b, hmb, h⟩
      obtain ⟨i, hi⟩ := List.get_of_mem hma
      obtain ⟨j, hj⟩ := List.get_of_mem hmb
      have hi2 := i.2
      have hj2 := j.2
      refine ⟨i.1, j.1, by omega, by omega, a, b, ?_, ?_, h⟩
      · rw [List.get?_eq_get i.2]; exact congrArg some hi
      · rw [List.get?_eq_get j.2]; exact congrArg some hj

/-- C16 at `array_a_len = 2` on `a = {1, 2, 9}`, `b = {3, 4, 9}` for the targets 6 and
11: the elements past `array_a_len` are not looked at, whatever `array_b_len`; and at
`a = {1, 2}`, `b = {3, 4}`, where the call agrees with the vector overload. -/
theorem C16_lens_ignores_array_b_len_witness :
    (∃ r : Bool,
      (∀ any_b_len : I32,
        sum_of_two_others_lens 2 [1, 2, 9] any_b_len [3, 4, 9] 6 = .returned r) ∧
      (r = true ↔ ∃ i j : Nat, (i : Int) < (2 : I32).val ∧ (j : Int) < (2 : I32).val ∧
        ∃ a b : I32, ([1, 2, 9] : List I32).get? i = some a ∧
          ([3, 4, 9] : List I32).get? j = some b ∧ a + b = 6)) ∧
    sum_of_two_others_lens 2 [1, 2] 7 [3, 4] 6 = .returned (sum_of_two_others [1, 2] [3, 4] 6) :=
  ⟨(C16_lens_ignores_array_b_len 2 [1, 2, 9] 3 [3, 4, 9] 6 (by decide) (by decide)).1,
   (C16_lens_ignores_array_b_len 2 [1, 2] 7 [3, 4] 6 (by decide) (by decide)).2
     (by decide) (by decide)⟩

/-- C19: the two sequence arguments are interchangeable. For all sequences A, B and
every target T, `sum_of_two_others(A, B, T) == sum_of_two_others(B, A, T)` for the vector
overload and `sum_of_two_others2(A, B, T) == sum_of_two_others2(B, A, T)` for the
hash-based vector overload. -/
theorem C19_sequence_arguments_interchangeable (A B : List I32) (T : I32) :
    sum_of_two_others A B T = sum_of_two_others B A T ∧
    sum_of_two_others2 A B T = sum_of_two_others2 B A T := by
  have hswap : sum_of_two_others A B T = true ↔ sum_of_two_others B A T = true := by
    rw [sum_of_two_others_iff_mem, sum_of_two_others_iff_mem]
    constructor
    · rintro ⟨a, ha, b, hb, h⟩
      exact ⟨b, hb, a, ha, by rw [I32.add_comm_wrap]; exact h⟩
    · rintro ⟨b, hb, a, ha, h⟩
      exact ⟨a, ha, b, hb, by rw [I32.add_comm_wrap]; exact h⟩
  refine ⟨bool_eq_of_iff hswap, bool_eq_of_iff ?_⟩
  rw [sum_of_two_others2_iff_linear, sum_of_two_others2_iff_linear]
  exact hswap

/-! ## Claims C14, C18: `golden_ratio` -/

theorem golden_ratio_loop_fib (F : Nat → Int)
    (hF : ∀ k, F (k + 2) = F (k + 1) + F k) :
    ∀ rounds k : Nat,
      golden_ratio_loop rounds (F (k + 1), F k) = (F (rounds + k + 1), F (rounds + k)) := by
  intro rounds
  induction rounds with
  | zero => intro k; simp [golden_ratio_loop]
  | succ rounds ih =>
    intro k
    rw [golden_ratio_loop, ← hF k, ih (k + 1)]
    have e : rounds + (k + 1) = rounds + 1 + k := by omega
    rw [e]

theorem golden_ratio_exact_eq (F : Nat → Int) (h0 : F 0 = 0) (h1 : F 1 = 1)
    (hF : ∀ k, F (k + 2) = F (k + 1) + F k) (n : Nat) :
    golden_ratio_exact n = F (n + 1) := by
  have h := golden_ratio_loop_fib F hF n 0
  rw [h0, h1] at h
  show (golden_ratio_loop (n : Int).toNat ((1 : Int), (0 : Int))).1 = F (n + 1)
  rw [Int.toNat_ofNat, h]

theorem wrap_add_wrap (x y : Int) : wrap x + wrap y = wrap (x + y) := by
  apply I32.eq_of_val_eq
  rw [I32.add_val]
  show ((x + 2147483648) % 4294967296 - 2147483648 +
      ((y + 2147483648) % 4294967296 - 2147483648) + 2147483648) % 4294967296 - 2147483648 =
    (x + y + 2147483648) % 4294967296 - 2147483648
  omega

/-- The `int` run of the loop is the exact run wrapped around. -/
theorem golden_ratio_loop_wrap :
    ∀ (rounds : Nat) (v p : Int),
      golden_ratio_loop rounds (wrap v, wrap p) =
        (wrap (golden_ratio_loop rounds (v, p)).1, wrap (golden_ratio_loop rounds (v, p)).2) := by
  intro rounds
  induction rounds with
  | zero => intro v p; rfl
  | succ rounds ih =>
    intro v p
    rw [golden_ratio_loop, golden_ratio_loop, wrap_add_wrap, ih]

theorem golden_ratio_eq_wrap_exact (index : I32) :
    golden_ratio index = wrap (golden_ratio_exact index.val) := by
  have h := golden_ratio_loop_wrap index.val.toNat 1 0
  show (golden_ratio_loop index.val.toNat (wrap 1, wrap 0)).1 = _
  rw [h]
  rfl

/-- C14: `golden_ratio` generates the Fibonacci sequence shifted by one. In exact integer
arithmetic, for `F(0) = 0`, `F(1) = 1`, `F(k+2) = F(k+1) + F(k)` and every index
`n >= 0`, `golden_ratio(n) == F(n+1)`; equivalently `golden_ratio(0) = golden_ratio(1) = 1`
and `golden_ratio(n+2) = golden_ratio(n+1) + golden_ratio(n)`; `golden_ratio(6) == 13`.
The `int` function returns that value wrapped around to 32 bits. -/
theorem C14_golden_ratio_is_shifted_fibonacci (F : Nat → Int) (h0 : F 0 = 0)
    (h1 : F 1 = 1) (hF : ∀ k, F (k + 2) = F (k + 1) + F k) :
    (∀ n : Nat, golden_ratio_exact n = F (n + 1)) ∧
    (golden_ratio_exact 0 = 1 ∧ golden_ratio_exact 1 = 1 ∧
      ∀ n : Nat, golden_ratio_exact ((n + 2 : Nat) : Int) =
        golden_ratio_exact ((n + 1 : Nat) : Int) + golden_ratio_exact n) ∧
    (golden_ratio_exact 6 = 13 ∧ golden_ratio 6 = 13) ∧
    (∀ index : I32, 0 ≤ index.val →
      golden_ratio index = wrap (F (index.val.toNat + 1))) := by
  refine ⟨golden_ratio_exact_eq F h0 h1 hF, ⟨by decide, by decide, fun n => ?_⟩,
    ⟨by decide, by decide⟩, fun index hidx => ?_⟩
  · rw [golden_ratio_exact_eq F h0 h1 hF, golden_ratio_exact_eq F h0 h1 hF,
      golden_ratio_exact_eq F h0 h1 hF]
    exact hF (n + 1)
  · rw [golden_ratio_eq_wrap_exact, ← golden_ratio_exact_eq F h0 h1 hF,
      Int.toNat_of_nonneg hidx]

/-- C14 with the Fibonacci numbers of Mathlib for `F`, at index 6: `F(7) = 13`. -/
theorem C14_golden_ratio_is_shifted_fibonacci_witness :
    golden_ratio_exact 6 = ((Nat.fib (6 + 1) : Nat) : Int) :=
  (C14_golden_ratio_is_shifted_fibonacci (fun k => ((Nat.fib k : Nat) : Int)) (by simp)
    (by simp) (fun k => by
      show ((Nat.fib (k + 2) : Nat) : Int) = ((Nat.fib (k + 1) : Nat) : Int) + (Nat.fib k : Nat)
      rw [Nat.fib_add_two]; push_cast; ring)).1 6

set_option maxRecDepth 100000 in
theorem golden_ratio_rounds_in_range :
    ∀ i : Nat, i < 45 →
      (golden_ratio_loop i ((1 : I32), (0 : I32))).1.val +
        (golden_ratio_loop i ((1 : I32), (0 : I32))).2.val ≤ 2147483647 := by
  decide

set_option maxRecDepth 100000 in
theorem golden_ratio_exact_upto_45 :
    ∀ n : Nat, n ≤ 45 →
      (golden_ratio_loop n ((1 : I32), (0 : I32))).1.val =
        (golden_ratio_loop n ((1 : Int), (0 : Int))).1 := by
  decide

set_option maxRecDepth 100000 in
/-- C18: `golden_ratio` stays within the signed 32-bit range exactly up to index 45. For
every index `0 <= n <= 45` no addition of the loop exceeds `2^31 - 1` (in every round
the exact sum of the `int` values `v` and `p` is at most `2147483647`) and the `int`
result equals the exact value; `golden_ratio(45) == 1836311903`. At index 46 the last
addition and the exact value are `2971215073 > 2^31 - 1`, and the `int` result differs
from the exact one. -/
theorem C18_golden_ratio_in_int_range_upto_45 :
    (∀ index : I32, 0 ≤ index.val → index.val ≤ 45 →
      (∀ i : Nat, i < index.val.toNat →
        (golden_ratio_loop i ((1 : I32), (0 : I32))).1.val +
          (golden_ratio_loop i ((1 : I32), (0 : I32))).2.val ≤ 2147483647) ∧
      (golden_ratio index).val = golden_ratio_exact index.val) ∧
    (golden_ratio 45 = 1836311903 ∧ golden_ratio_exact 45 = 1836311903) ∧
    ((golden_ratio_loop 45 ((1 : I32), (0 : I32))).1.val +
        (golden_ratio_loop 45 ((1 : I32), (0 : I32))).2.val = 2971215073 ∧
      golden_ratio_exact 46 = 2971215073 ∧
      (2147483647 : Int) < golden_ratio_exact 46 ∧
      (golden_ratio 46).val ≠ golden_ratio_exact 46) := by
  refine ⟨fun index h0 h45 => ⟨fun i hi => ?_, ?_⟩, ⟨by decide, by decide⟩,
    ⟨by decide, by decide, by decide, by decide⟩⟩
  · exact golden_ratio_rounds_in_range i (by omega)
  · exact golden_ratio_exact_upto_45 index.val.toNat (by omega)

/-! ## Claims C13, C17: `first_non_recurring` -/

/-- The first loop keeps `valid` the set of the characters met so far and `too_many` the
set of the characters met at least twice. -/
theorem first_non_recurring_sets_spec :
    ∀ (rest done : List Char) (sets : Finset Char × Finset Char),
      (∀ c, c ∈ sets.1 ↔ c ∈ done) → (∀ c, c ∈ sets.2 ↔ 2 ≤ done.count c) →
      (∀ c, c ∈ (first_non_recurring_sets rest sets).1 ↔ c ∈ done ++ rest) ∧
      (∀ c, c ∈ (first_non_recurring_sets rest sets).2 ↔ 2 ≤ (done ++ rest).count c) := by
  intro rest
  induction rest with
  | nil =>
    intro done sets h1 h2
    simpa [first_non_recurring_sets] using ⟨h1, h2⟩
  | cons x rest ih =>
    intro done sets h1 h2
    have hstep : first_non_recurring_sets (x :: rest) sets =
        first_non_recurring_sets rest
          (if x ∉ sets.1 then (insert x sets.1, sets.2) else (sets.1, insert x sets.2)) := rfl
    have happ : done ++ x :: rest = (done ++ [x]) ++ rest := by simp
    rw [hstep, happ]
    apply ih (done ++ [x])
    · intro c
      by_cases hx : x ∈ sets.1
      · have hxd : x ∈ done := (h1 x).1 hx
        simp only [hx, not_true_eq_false, if_false, List.mem_append, List.mem_singleton, h1 c]
        constructor
        · exact Or.inl
        · rintro (h | h)
          · exact h
          · rw [h]; exact hxd
      · simp only [hx, not_false_eq_true, if_true, Finset.mem_insert, List.mem_append,
          List.mem_singleton, h1 c]
        tauto
    · intro c
      rw [List.count_append, List.count_singleton]
      by_cases hx : x ∈ sets.1
      · have hxd : 1 ≤ done.count x := List.one_le_count_iff.2 ((h1 x).1 hx)
        simp only [hx, not_true_eq_false, if_false, Finset.mem_insert, h2 c]
        by_cases hc : c = x
        · subst hc; simp; exact (h1 _).1 hx
        · have hne : ¬ x = c := fun h => hc h.symm
          simp [hc, hne]
      · have hxd : done.count x = 0 := List.count_eq_zero.2 (fun h => hx ((h1 x).2 h))
        simp only [hx, not_false_eq_true, if_true, h2 c]
        by_cases hc : c = x
        · subst hc
          have hnot : c ∉ done := fun h => hx ((h1 c).2 h)
          simp [hxd, hnot]
        · have hne : ¬ x = c := fun h => hc h.symm
          simp [hc, hne]

theorem find_congr_on {α : Type} (p q : α → Bool) :
    ∀ l : List α, (∀ c ∈ l, p c = q c) → l.find? p = l.find? q := by
  intro l
  induction l with
  | nil => intro _; rfl
  | cons x xs ih =>
    intro h
    rw [List.find?_cons, List.find?_cons, h x (List.mem_cons_self x xs),
      ih (fun c hc => h c (List.mem_cons_of_mem x hc))]

/-- The function `first_non_recurring` returns the first character of the string that
occurs exactly once in it, when there is one. -/
theorem first_non_recurring_eq_find (string_a : List Char) :
    first_non_recurring string_a =
      string_a.find? fun c => decide (string_a.count c = 1) := by
  have hspec := (first_non_recurring_sets_spec string_a [] (∅, ∅) (by simp) (by simp)).2
  rw [List.nil_append] at hspec
  unfold first_non_recurring
  apply find_congr_on
  intro c hc
  have h1 : 1 ≤ string_a.count c := List.one_le_count_iff.2 hc
  have h2 := hspec c
  by_cases h : string_a.count c = 1
  · have : c ∉ (first_non_recurring_sets string_a (∅, ∅)).2 := by rw [h2]; omega
    simp [this, h]
  · have : c ∈ (first_non_recurring_sets string_a (∅, ∅)).2 := by rw [h2]; omega
    simp [this, h]

/-- C13: for every string that contains at least one character occurring exactly once,
`first_non_recurring` returns the leftmost character of the string whose number of
occurrences in the whole string is exactly one: the string is `before ++ c :: after`,
`c` occurs once and no character of `before` does. On `some something text` that is
`h`. -/
theorem C13_first_non_recurring_leftmost_unique (string_a : List Char)
    (h : ∃ c ∈ string_a, string_a.count c = 1) :
    ∃ (c : Char) (before after : List Char),
      first_non_recurring string_a = some c ∧
      string_a = before ++ c :: after ∧
      string_a.count c = 1 ∧
      ∀ d ∈ before, string_a.count d ≠ 1 := by
  rw [first_non_recurring_eq_find]
  obtain ⟨c0, hc0, hcount0⟩ := h
  cases hfind : string_a.find? (fun c => decide (string_a.count c = 1)) with
  | none =>
    rw [List.find?_eq_none] at hfind
    exact absurd (by simpa using hcount0) (hfind c0 hc0)
  | some c =>
    obtain ⟨hp, before, after, hsplit, hbefore⟩ := List.find?_eq_some.1 hfind
    refine ⟨c, before, after, rfl, hsplit, by simpa using hp, fun d hd => ?_⟩
    simpa using hbefore d hd

/-- C13 on the string of `main`, `some something text`: the result is `h`. -/
theorem C13_first_non_recurring_leftmost_unique_witness :
    first_non_recurring "some something text".toList = some 'h' ∧
    ∃ (c : Char) (before after : List Char),
      first_non_recurring "some something text".toList = some c ∧
      "some something text".toList = before ++ c :: after ∧
      "some something text".toList.count c = 1 ∧
      ∀ d ∈ before, "some something text".toList.count d ≠ 1 :=
  ⟨by decide,
   C13_first_non_recurring_leftmost_unique "some something text".toList
    ⟨'h', by decide, by decide⟩⟩

/-- C17: `first_non_recurring` yields a character if and only if the string has a
character occurring exactly once. For every string in which every character occurs at
least twice, and for the empty string, control reaches the end of the function without a
`return`: the result is `none`. -/
theorem C17_first_non_recurring_returns_iff_unique_exists :
    (∀ string_a : List Char,
      (first_non_recurring string_a).isSome = true ↔
        ∃ c ∈ string_a, string_a.count c = 1) ∧
    (∀ string_a : List Char, (∀ c ∈ string_a, 2 ≤ string_a.count c) →
      first_non_recurring string_a = none) ∧
    first_non_recurring [] = none := by
  refine ⟨fun string_a => ?_, fun string_a h => ?_, rfl⟩
  · rw [first_non_recurring_eq_find, List.find?_isSome]
    simp
  · rw [first_non_recurring_eq_find, List.find?_eq_none]
    intro c hc
    have := h c hc
    simp only [decide_eq_true_eq]
    omega

/-- C17 on `abab`, where both characters occur twice: no character is returned. -/
theorem C17_first_non_recurring_returns_iff_unique_exists_witness :
    first_non_recurring "abab".toList = none :=
  C17_first_non_recurring_returns_iff_unique_exists.2.1 "abab".toList (by decide)

/-! ## Claim C15: `christmas_tree` -/

end CPP
